import Mathlib

/-!
Shallow embedding of the core numerical routines of the 1D quantum mechanics
applet (`QM_1D_TI/QM_1D_TI_Numba.py`): the grid configuration (`Constants`),
Crank-Nicolson propagator construction (`_construct_U`), and the
`Wavefunction_1D` operations (normalization, expectation values, momentum
analysis and stochastic collapse).  Machine floating-point arithmetic is
modelled by ideal real/complex arithmetic; the pseudo-random draws of the
collapse methods are modelled by passing the sampled outcome as an explicit
argument, constrained to outcomes of nonzero probability.
-/

noncomputable section

open Complex Matrix

open scoped NNReal Real ComplexConjugate

/-- Physical and numerical constants of the simulation (`class Constants`). -/
structure GridConfig where
  m : ℝ
  hbar : ℝ
  e : ℝ
  x0 : ℝ
  L : ℝ
  N : ℕ
  dx : ℝ
  dt : ℝ
  scale : ℝ

/-- The default constants assigned by `Constants.__init__`:
`m = hbar = e = 1`, `x0 = -0.5`, `L = 1`, `N = 512`, `dx = L/N`,
`dt = 1e-5`, `_scale = (128/N)*5e5`. -/
def defaultConfig : GridConfig where
  m := 1
  hbar := 1
  e := 1
  x0 := -(1 / 2)
  L := 1
  N := 512
  dx := 1 / 512
  dt := 1 / 100000
  scale := (128 / 512) * 500000

/-- A valid grid configuration in the sense of the specification's data model:
positive mass, positive reduced Planck constant, positive box length, at least
two grid points, `dx` derived as `L/N`, and a nonzero time step. -/
def GridConfig.Valid (c : GridConfig) : Prop :=
  0 < c.m ∧ 0 < c.hbar ∧ 0 < c.L ∧ 2 ≤ c.N ∧ c.dx = c.L / c.N ∧ c.dt ≠ 0

/-- `np.linspace a b n`: `n` evenly spaced samples from `a` to `b`, with the
endpoint `b` included, so the spacing is `(b - a)/(n - 1)`. -/
def linspace (a b : ℝ) (n : ℕ) : Fin n → ℝ :=
  fun i => a + (i : ℕ) * ((b - a) / ((n - 1 : ℕ) : ℝ))

/-- The spatial sample points used by both `Wavefunction_1D.__init__` and
`Unitary_Operator_1D.__init__`: `np.linspace(x0, L + x0, N)`. -/
def sampleGrid (c : GridConfig) : Fin c.N → ℝ :=
  linspace c.x0 (c.L + c.x0) c.N

/-- `Wavefunction_1D.__init__` on a callable waveform: sample the callable on
the grid `np.linspace(x0, L + x0, N)`. -/
def waveformFromCallable (c : GridConfig) (f : ℝ → ℂ) : Fin c.N → ℂ :=
  fun i => f (sampleGrid c i)

/-- `Unitary_Operator_1D.__init__` on a callable potential: sample the callable
at each point of `np.linspace(x0, L + x0, N)`. -/
def potentialFromCallable (c : GridConfig) (f : ℝ → ℂ) : Fin c.N → ℂ :=
  fun i => f (sampleGrid c i)

/-- One array store `M[p][q] = v`, as executed by the assembly loop of
`_construct_U`.  The store is recorded as `((p, q), v)`. -/
def updW {N : ℕ} (M : Matrix (Fin N) (Fin N) ℂ) (w : (Fin N × Fin N) × ℂ) :
    Matrix (Fin N) (Fin N) ℂ :=
  fun p q => if p = w.1.1 ∧ q = w.1.2 then w.2 else M p q

/-- Execute a list of array stores in program order. -/
def applyWrites {N : ℕ} (M : Matrix (Fin N) (Fin N) ℂ)
    (ws : List ((Fin N × Fin N) × ℂ)) : Matrix (Fin N) (Fin N) ℂ :=
  ws.foldl updW M

/-- The stores performed by the body of the double loop of `_construct_U` at
loop indices `(i, l)`, for one of the two matrices being assembled: the
diagonal value `d i` is stored at `(i, i)` when `i == l`, and the off-diagonal
value `o` is stored at both `(i, l)` and `(l, i)` when `l == i + 1`. -/
def bodyTri {N : ℕ} (d : Fin N → ℂ) (o : ℂ) (i l : Fin N) :
    List ((Fin N × Fin N) × ℂ) :=
  if i = l then [((i, l), d i)]
  else if (l : ℕ) = (i : ℕ) + 1 then [((i, l), o), ((l, i), o)]
  else []

/-- The full sequence of stores of the double loop
`for i in range(N): for l in range(N): ...` of `_construct_U`. -/
def writesTri {N : ℕ} (d : Fin N → ℂ) (o : ℂ) : List ((Fin N × Fin N) × ℂ) :=
  (List.finRange N).flatMap fun i =>
    (List.finRange N).flatMap fun l => bodyTri d o i l

/-- The closed form of the matrices assembled by `_construct_U`: value `d i` on
the diagonal, `o` on the first super- and sub-diagonals, `0` elsewhere. -/
def triMat {N : ℕ} (d : Fin N → ℂ) (o : ℂ) : Matrix (Fin N) (Fin N) ℂ :=
  fun i l =>
    if i = l then d i
    else if (l : ℕ) = (i : ℕ) + 1 ∨ (i : ℕ) = (l : ℕ) + 1 then o
    else 0

theorem applyWrites_of_filter_eq_nil {N : ℕ} (M : Matrix (Fin N) (Fin N) ℂ)
    (ws : List ((Fin N × Fin N) × ℂ)) (p q : Fin N)
    (h : ws.filter (fun w => w.1 = (p, q)) = []) :
    applyWrites M ws p q = M p q := by
  induction ws generalizing M with
  | nil => rfl
  | cons w ws ih =>
    rw [List.filter_cons] at h
    simp only [decide_eq_true_eq] at h
    by_cases hw : w.1 = (p, q)
    · rw [if_pos hw] at h
      exact absurd h (List.cons_ne_nil _ _)
    · rw [if_neg hw] at h
      have hstep : applyWrites M (w :: ws) p q = applyWrites (updW M w) ws p q := rfl
      rw [hstep, ih _ h]
      unfold updW
      rw [if_neg]
      rintro ⟨h1, h2⟩
      exact hw (Prod.ext_iff.mpr ⟨h1.symm, h2.symm⟩)

theorem applyWrites_of_filter_eq_single {N : ℕ} (M : Matrix (Fin N) (Fin N) ℂ)
    (ws : List ((Fin N × Fin N) × ℂ)) (p q : Fin N) (v : ℂ)
    (h : ws.filter (fun w => w.1 = (p, q)) = [((p, q), v)]) :
    applyWrites M ws p q = v := by
  induction ws generalizing M with
  | nil => exact absurd h.symm (List.cons_ne_nil _ _)
  | cons w ws ih =>
    rw [List.filter_cons] at h
    simp only [decide_eq_true_eq] at h
    by_cases hw : w.1 = (p, q)
    · rw [if_pos hw] at h
      rw [List.cons_eq_cons] at h
      obtain ⟨hw2, hrest⟩ := h
      have hstep : applyWrites M (w :: ws) p q = applyWrites (updW M w) ws p q := rfl
      rw [hstep, applyWrites_of_filter_eq_nil _ _ _ _ hrest]
      unfold updW
      rw [if_pos]
      · rw [hw2]
      · exact ⟨(congrArg Prod.fst hw).symm, (congrArg Prod.snd hw).symm⟩
    · rw [if_neg hw] at h
      exact ih _ h

theorem flatMap_eq_nil_of {α β : Type*} (xs : List α) (g : α → List β)
    (h : ∀ x ∈ xs, g x = []) : xs.flatMap g = [] := by
  induction xs with
  | nil => rfl
  | cons x xs ih =>
    rw [List.flatMap_cons, h x (List.mem_cons_self x xs), List.nil_append]
    exact ih fun y hy => h y (List.mem_cons_of_mem _ hy)

theorem flatMap_eq_of_single {α β : Type*} (xs : List α) (g : α → List β)
    (x0 : α) (L : List β) (hnd : xs.Nodup) (hmem : x0 ∈ xs) (h0 : g x0 = L)
    (hrest : ∀ x ∈ xs, x ≠ x0 → g x = []) : xs.flatMap g = L := by
  induction xs with
  | nil => cases hmem
  | cons x xs ih =>
    rw [List.flatMap_cons]
    rcases List.mem_cons.mp hmem with hx | hx
    · subst hx
      rw [h0, flatMap_eq_nil_of xs g ?_, List.append_nil]
      intro y hy
      refine hrest y (List.mem_cons_of_mem _ hy) fun hyx => ?_
      exact (List.nodup_cons.mp hnd).1 (hyx ▸ hy)
    · rw [hrest x (List.mem_cons_self x xs) ?_, List.nil_append]
      · exact ih (List.nodup_cons.mp hnd).2 hx
          fun y hy hyx => hrest y (List.mem_cons_of_mem _ hy) hyx
      · intro hxx
        exact (List.nodup_cons.mp hnd).1 (hxx ▸ hx)

theorem filter_flatMap {α β : Type*} (xs : List α) (g : α → List β)
    (P : β → Bool) :
    (xs.flatMap g).filter P = xs.flatMap fun x => (g x).filter P := by
  induction xs with
  | nil => rfl
  | cons x xs ih => rw [List.flatMap_cons, List.filter_append, ih, List.flatMap_cons]

theorem writesTri_filter_diag {N : ℕ} (d : Fin N → ℂ) (o : ℂ) (p : Fin N) :
    (writesTri d o).filter (fun w => w.1 = (p, p)) = [((p, p), d p)] := by
  simp only [writesTri, filter_flatMap]
  refine flatMap_eq_of_single _ _ p _ (List.nodup_finRange N) (List.mem_finRange p) ?_ ?_
  · refine flatMap_eq_of_single _ _ p _ (List.nodup_finRange N) (List.mem_finRange p) ?_ ?_
    · unfold bodyTri
      rw [if_pos rfl]
      simp
    · intro l _ hlp
      unfold bodyTri
      by_cases h1 : p = l
      · exact absurd h1.symm hlp
      · rw [if_neg h1]
        by_cases h2 : (l : ℕ) = (p : ℕ) + 1
        · rw [if_pos h2]
          simp [Prod.ext_iff, hlp]
        · rw [if_neg h2]; rfl
  · intro i _ hip
    refine flatMap_eq_nil_of _ _ fun l _ => ?_
    unfold bodyTri
    by_cases h1 : i = l
    · rw [if_pos h1]
      simp [Prod.ext_iff, hip]
    · rw [if_neg h1]
      by_cases h2 : (l : ℕ) = (i : ℕ) + 1
      · rw [if_pos h2]
        simp [Prod.ext_iff, hip]
      · rw [if_neg h2]; rfl

theorem writesTri_filter_super {N : ℕ} (d : Fin N → ℂ) (o : ℂ) (p q : Fin N)
    (hq : (q : ℕ) = (p : ℕ) + 1) :
    (writesTri d o).filter (fun w => w.1 = (p, q)) = [((p, q), o)] := by
  have hne : p ≠ q := fun h => by rw [h] at hq; omega
  simp only [writesTri, filter_flatMap]
  refine flatMap_eq_of_single _ _ p _ (List.nodup_finRange N) (List.mem_finRange p) ?_ ?_
  · refine flatMap_eq_of_single _ _ q _ (List.nodup_finRange N) (List.mem_finRange q) ?_ ?_
    · unfold bodyTri
      rw [if_neg hne, if_pos hq]
      simp [Prod.ext_iff, Ne.symm hne]
    · intro l _ hlq
      unfold bodyTri
      by_cases h1 : p = l
      · rw [if_pos h1]
        subst h1
        simp [Prod.ext_iff, hne]
      · rw [if_neg h1]
        by_cases h2 : (l : ℕ) = (p : ℕ) + 1
        · exact absurd (Fin.ext (h2.trans hq.symm)) hlq
        · rw [if_neg h2]; rfl
  · intro i _ hip
    refine flatMap_eq_nil_of _ _ fun l _ => ?_
    unfold bodyTri
    by_cases h1 : i = l
    · rw [if_pos h1]
      subst h1
      simp [Prod.ext_iff, hip]
    · rw [if_neg h1]
      by_cases h2 : (l : ℕ) = (i : ℕ) + 1
      · rw [if_pos h2]
        have hA : ¬((i, l) = (p, q)) := fun h => hip (congrArg Prod.fst h)
        have hB : ¬((l, i) = (p, q)) := by
          intro h
          have hl : l = p := congrArg Prod.fst h
          have hi : i = q := congrArg Prod.snd h
          rw [hl, hi] at h2
          omega
        simp [hA, hB]
      · rw [if_neg h2]; rfl

theorem writesTri_filter_sub {N : ℕ} (d : Fin N → ℂ) (o : ℂ) (p q : Fin N)
    (hp : (p : ℕ) = (q : ℕ) + 1) :
    (writesTri d o).filter (fun w => w.1 = (p, q)) = [((p, q), o)] := by
  have hne : p ≠ q := fun h => by rw [h] at hp; omega
  simp only [writesTri, filter_flatMap]
  refine flatMap_eq_of_single _ _ q _ (List.nodup_finRange N) (List.mem_finRange q) ?_ ?_
  · refine flatMap_eq_of_single _ _ p _ (List.nodup_finRange N) (List.mem_finRange p) ?_ ?_
    · unfold bodyTri
      rw [if_neg (Ne.symm hne), if_pos hp]
      simp [Prod.ext_iff, Ne.symm hne]
    · intro l _ hlp
      unfold bodyTri
      by_cases h1 : q = l
      · rw [if_pos h1]
        subst h1
        simp [Prod.ext_iff, Ne.symm hne]
      · rw [if_neg h1]
        by_cases h2 : (l : ℕ) = (q : ℕ) + 1
        · exact absurd (Fin.ext (h2.trans hp.symm)) hlp
        · rw [if_neg h2]; rfl
  · intro i _ hiq
    refine flatMap_eq_nil_of _ _ fun l _ => ?_
    unfold bodyTri
    by_cases h1 : i = l
    · rw [if_pos h1]
      subst h1
      simp [Prod.ext_iff, hiq]
    · rw [if_neg h1]
      by_cases h2 : (l : ℕ) = (i : ℕ) + 1
      · rw [if_pos h2]
        have hA : ¬((i, l) = (p, q)) := by
          intro h
          have hi : i = p := congrArg Prod.fst h
          have hl : l = q := congrArg Prod.snd h
          rw [hi, hl] at h2
          omega
        have hB : ¬((l, i) = (p, q)) := fun h => hiq (congrArg Prod.snd h)
        simp [hA, hB]
      · rw [if_neg h2]; rfl

theorem writesTri_filter_other {N : ℕ} (d : Fin N → ℂ) (o : ℂ) (p q : Fin N)
    (h1 : p ≠ q) (h2 : (q : ℕ) ≠ (p : ℕ) + 1) (h3 : (p : ℕ) ≠ (q : ℕ) + 1) :
    (writesTri d o).filter (fun w => w.1 = (p, q)) = [] := by
  simp only [writesTri, filter_flatMap]
  refine flatMap_eq_nil_of _ _ fun i _ => flatMap_eq_nil_of _ _ fun l _ => ?_
  unfold bodyTri
  by_cases hil : i = l
  · rw [if_pos hil]
    subst hil
    have hA : ¬((i, i) = (p, q)) := by
      intro h
      have ha : i = p := congrArg Prod.fst h
      have hb : i = q := congrArg Prod.snd h
      exact h1 (ha.symm.trans hb)
    simp [hA]
  · rw [if_neg hil]
    by_cases hl : (l : ℕ) = (i : ℕ) + 1
    · rw [if_pos hl]
      have hA : ¬((i, l) = (p, q)) := by
        intro h
        have ha : i = p := congrArg Prod.fst h
        have hb : l = q := congrArg Prod.snd h
        rw [ha, hb] at hl
        exact h2 hl
      have hB : ¬((l, i) = (p, q)) := by
        intro h
        have ha : l = p := congrArg Prod.fst h
        have hb : i = q := congrArg Prod.snd h
        rw [ha, hb] at hl
        exact h3 hl
      simp [hA, hB]
    · rw [if_neg hl]; rfl

/-- The double loop of `_construct_U` assembles exactly the tridiagonal matrix
with diagonal `d` and first off-diagonals `o`. -/
theorem applyWrites_writesTri {N : ℕ} (d : Fin N → ℂ) (o : ℂ) (p q : Fin N) :
    applyWrites 0 (writesTri d o) p q = triMat d o p q := by
  unfold triMat
  by_cases h1 : p = q
  · subst h1
    rw [applyWrites_of_filter_eq_single _ _ _ _ _ (writesTri_filter_diag d o p), if_pos rfl]
  · rw [if_neg h1]
    by_cases h2 : (q : ℕ) = (p : ℕ) + 1
    · rw [applyWrites_of_filter_eq_single _ _ _ _ _ (writesTri_filter_super d o p q h2),
        if_pos (Or.inl h2)]
    · by_cases h3 : (p : ℕ) = (q : ℕ) + 1
      · rw [applyWrites_of_filter_eq_single _ _ _ _ _ (writesTri_filter_sub d o p q h3),
          if_pos (Or.inr h3)]
      · rw [applyWrites_of_filter_eq_nil _ _ _ _ (writesTri_filter_other d o p q h1 h2 h3),
          if_neg (fun h => h.elim h2 h3)]
        simp

/-- `K = (dt*1.0j*hbar)/(4*m*dx**2)` from `_construct_U`. -/
def Kconst (m hbar dx dt : ℝ) : ℂ :=
  ((dt : ℂ) * Complex.I * (hbar : ℂ)) / (4 * (m : ℂ) * (dx : ℂ) ^ 2)

/-- `J = (dt*1.0j)/(2*hbar)` from `_construct_U`. -/
def Jconst (hbar dt : ℝ) : ℂ :=
  ((dt : ℂ) * Complex.I) / (2 * (hbar : ℂ))

/-- The `A` matrix assembled by the double loop of `_construct_U`:
diagonal `a1 + J*V[i]` with `a1 = 1 + 2K`, off-diagonals `a2 = -K`. -/
def constructA (N : ℕ) (V : Fin N → ℂ) (m hbar dx dt : ℝ) :
    Matrix (Fin N) (Fin N) ℂ :=
  applyWrites 0
    (writesTri (fun i => (1 + 2 * Kconst m hbar dx dt) + Jconst hbar dt * V i)
      (-Kconst m hbar dx dt))

/-- The `B` matrix assembled by the double loop of `_construct_U`:
diagonal `b1 - J*V[i]` with `b1 = 1 - 2K`, off-diagonals `b2 = K`. -/
def constructB (N : ℕ) (V : Fin N → ℂ) (m hbar dx dt : ℝ) :
    Matrix (Fin N) (Fin N) ℂ :=
  applyWrites 0
    (writesTri (fun i => (1 - 2 * Kconst m hbar dx dt) - Jconst hbar dt * V i)
      (Kconst m hbar dx dt))

/-- `_construct_U(V, m, hbar, N, dx, dt)`: assemble `A` and `B` and return
`np.dot(np.linalg.inv(A), B)`. -/
def construct_U (N : ℕ) (V : Fin N → ℂ) (m hbar dx dt : ℝ) :
    Matrix (Fin N) (Fin N) ℂ :=
  (constructA N V m hbar dx dt)⁻¹ * constructB N V m hbar dx dt

theorem constructA_apply (N : ℕ) (V : Fin N → ℂ) (m hbar dx dt : ℝ)
    (p q : Fin N) :
    constructA N V m hbar dx dt p q =
      triMat (fun i => (1 + 2 * Kconst m hbar dx dt) + Jconst hbar dt * V i)
        (-Kconst m hbar dx dt) p q :=
  applyWrites_writesTri _ _ p q

theorem constructB_apply (N : ℕ) (V : Fin N → ℂ) (m hbar dx dt : ℝ)
    (p q : Fin N) :
    constructB N V m hbar dx dt p q =
      triMat (fun i => (1 - 2 * Kconst m hbar dx dt) - Jconst hbar dt * V i)
        (Kconst m hbar dx dt) p q :=
  applyWrites_writesTri _ _ p q

theorem Kconst_eq (m hbar dx dt : ℝ) :
    Kconst m hbar dx dt = Complex.I * ((dt * hbar / (4 * m * dx ^ 2) : ℝ) : ℂ) := by
  unfold Kconst
  push_cast
  ring

theorem Jconst_eq (hbar dt : ℝ) :
    Jconst hbar dt = Complex.I * ((dt / (2 * hbar) : ℝ) : ℂ) := by
  unfold Jconst
  push_cast
  ring

/-- For a real potential, `A = 1 + i*S` and `B = 1 - i*S` where `S` is this
real symmetric tridiagonal matrix. -/
def Smat (N : ℕ) (V : Fin N → ℝ) (m hbar dx dt : ℝ) : Matrix (Fin N) (Fin N) ℝ :=
  fun i l =>
    if i = l then 2 * (dt * hbar / (4 * m * dx ^ 2)) + dt / (2 * hbar) * V i
    else if (l : ℕ) = (i : ℕ) + 1 ∨ (i : ℕ) = (l : ℕ) + 1 then
      -(dt * hbar / (4 * m * dx ^ 2))
    else 0

theorem Smat_symm (N : ℕ) (V : Fin N → ℝ) (m hbar dx dt : ℝ) (i l : Fin N) :
    Smat N V m hbar dx dt i l = Smat N V m hbar dx dt l i := by
  unfold Smat
  by_cases h : i = l
  · subst h; rfl
  · rw [if_neg h, if_neg (Ne.symm h)]
    by_cases h2 : (l : ℕ) = (i : ℕ) + 1 ∨ (i : ℕ) = (l : ℕ) + 1
    · rw [if_pos h2, if_pos h2.symm]
    · rw [if_neg h2, if_neg (fun hc => h2 hc.symm)]

/-- The matrix `S` viewed as a complex matrix. -/
def SmatC (N : ℕ) (V : Fin N → ℝ) (m hbar dx dt : ℝ) : Matrix (Fin N) (Fin N) ℂ :=
  (Smat N V m hbar dx dt).map Complex.ofReal

theorem SmatC_herm (N : ℕ) (V : Fin N → ℝ) (m hbar dx dt : ℝ) :
    (SmatC N V m hbar dx dt)ᴴ = SmatC N V m hbar dx dt := by
  ext i l
  rw [Matrix.conjTranspose_apply, SmatC, Matrix.map_apply, Matrix.map_apply,
    Complex.star_def, Complex.conj_ofReal]
  exact congrArg Complex.ofReal (Smat_symm N V m hbar dx dt l i)

theorem constructA_cayley (N : ℕ) (V : Fin N → ℝ) (m hbar dx dt : ℝ) :
    constructA N (fun i => ((V i : ℝ) : ℂ)) m hbar dx dt =
      1 + Complex.I • SmatC N V m hbar dx dt := by
  ext i l
  rw [constructA_apply, Matrix.add_apply, Matrix.smul_apply, SmatC,
    Matrix.map_apply, smul_eq_mul]
  unfold triMat Smat
  by_cases h : i = l
  · subst h
    rw [if_pos rfl, if_pos rfl, Matrix.one_apply_eq, Kconst_eq, Jconst_eq]
    push_cast
    ring
  · rw [if_neg h, if_neg h, Matrix.one_apply_ne h]
    by_cases h2 : (l : ℕ) = (i : ℕ) + 1 ∨ (i : ℕ) = (l : ℕ) + 1
    · rw [if_pos h2, if_pos h2, Kconst_eq]
      push_cast
      ring
    · rw [if_neg h2, if_neg h2]
      simp

theorem constructB_cayley (N : ℕ) (V : Fin N → ℝ) (m hbar dx dt : ℝ) :
    constructB N (fun i => ((V i : ℝ) : ℂ)) m hbar dx dt =
      1 - Complex.I • SmatC N V m hbar dx dt := by
  ext i l
  rw [constructB_apply, Matrix.sub_apply, Matrix.smul_apply, SmatC,
    Matrix.map_apply, smul_eq_mul]
  unfold triMat Smat
  by_cases h : i = l
  · subst h
    rw [if_pos rfl, if_pos rfl, Matrix.one_apply_eq, Kconst_eq, Jconst_eq]
    push_cast
    ring
  · rw [if_neg h, if_neg h, Matrix.one_apply_ne h]
    by_cases h2 : (l : ℕ) = (i : ℕ) + 1 ∨ (i : ℕ) = (l : ℕ) + 1
    · rw [if_pos h2, if_pos h2, Kconst_eq]
      push_cast
      ring
    · rw [if_neg h2, if_neg h2]
      simp

theorem isUnit_det_one_add_I_smul {N : ℕ} (S : Matrix (Fin N) (Fin N) ℂ)
    (hS : Sᴴ = S) : IsUnit (1 + Complex.I • S).det := by
  rw [isUnit_iff_ne_zero]
  intro hdet
  obtain ⟨v, hv0, hv⟩ := Matrix.exists_mulVec_eq_zero_iff.mpr hdet
  have h1 : v + Complex.I • (S *ᵥ v) = 0 := by
    rw [Matrix.add_mulVec, Matrix.one_mulVec, Matrix.smul_mulVec_assoc] at hv
    exact hv
  have h2 : Complex.I • (S *ᵥ v) = -v := eq_neg_of_add_eq_zero_right h1
  have hSv : S *ᵥ v = Complex.I • v := by
    calc S *ᵥ v = (-Complex.I) • (Complex.I • (S *ᵥ v)) := by
          rw [smul_smul]
          norm_num [Complex.I_mul_I]
    _ = (-Complex.I) • (-v) := by rw [h2]
    _ = Complex.I • v := by rw [smul_neg, neg_smul, neg_neg]
  set r : ℂ := Matrix.dotProduct (star v) v with hrdef
  have hc : Matrix.dotProduct (star v) (S *ᵥ v) = Complex.I * r := by
    rw [hSv, Matrix.dotProduct_smul, smul_eq_mul]
  have hcstar : star (Matrix.dotProduct (star v) (S *ᵥ v)) =
      Matrix.dotProduct (star v) (S *ᵥ v) := by
    conv_lhs => rw [Matrix.star_dotProduct, star_star, Matrix.star_mulVec, hS,
      ← Matrix.dotProduct_mulVec]
  have hrval : r = ((∑ i, Complex.normSq (v i) : ℝ) : ℂ) := by
    rw [hrdef]
    unfold Matrix.dotProduct
    push_cast
    refine Finset.sum_congr rfl fun i _ => ?_
    rw [Pi.star_apply, Complex.star_def, ← Complex.normSq_eq_conj_mul_self]
  have hrstar : star r = r := by
    rw [hrval, Complex.star_def, Complex.conj_ofReal]
  have hrne : r ≠ 0 := by
    rw [hrval]
    rw [Complex.ofReal_ne_zero]
    refine ne_of_gt (Finset.sum_pos' (fun i _ => Complex.normSq_nonneg _) ?_)
    obtain ⟨i, hi⟩ := Function.ne_iff.mp hv0
    exact ⟨i, Finset.mem_univ i, Complex.normSq_pos.mpr hi⟩
  have heq : -Complex.I * r = Complex.I * r := by
    calc -Complex.I * r = star Complex.I * star r := by
          rw [hrstar, Complex.star_def, Complex.conj_I]
    _ = star (Complex.I * r) := (star_mul' _ _).symm
    _ = Complex.I * r := by rw [← hc, hcstar, hc]
  have h6 : (2 * Complex.I) * r = 0 := by linear_combination -heq
  rcases mul_eq_zero.mp h6 with h7 | h7
  · have : Complex.I ≠ 0 := Complex.I_ne_zero
    rcases mul_eq_zero.mp h7 with h8 | h8
    · norm_num at h8
    · exact this h8
  · exact hrne h7

theorem cayley_unitary {N : ℕ} (S : Matrix (Fin N) (Fin N) ℂ) (hS : Sᴴ = S) :
    ((1 + Complex.I • S)⁻¹ * (1 - Complex.I • S))ᴴ *
      ((1 + Complex.I • S)⁻¹ * (1 - Complex.I • S)) = 1 := by
  have hA : IsUnit (1 + Complex.I • S).det := isUnit_det_one_add_I_smul S hS
  have hB : IsUnit (1 - Complex.I • S).det := by
    have h1 : (1 : Matrix (Fin N) (Fin N) ℂ) + Complex.I • (-S) =
        1 - Complex.I • S := by
      rw [smul_neg, ← sub_eq_add_neg]
    have h2 : (-S)ᴴ = -S := by rw [Matrix.conjTranspose_neg, hS]
    have h3 := isUnit_det_one_add_I_smul (-S) h2
    rwa [h1] at h3
  have hBc : (1 - Complex.I • S)ᴴ = 1 + Complex.I • S := by
    rw [Matrix.conjTranspose_sub, Matrix.conjTranspose_smul,
      Matrix.conjTranspose_one, hS, Complex.star_def, Complex.conj_I, neg_smul,
      sub_neg_eq_add]
  have hAc : (1 + Complex.I • S)ᴴ = 1 - Complex.I • S := by
    rw [Matrix.conjTranspose_add, Matrix.conjTranspose_smul,
      Matrix.conjTranspose_one, hS, Complex.star_def, Complex.conj_I, neg_smul,
      ← sub_eq_add_neg]
  have hcomm : ∀ X : Matrix (Fin N) (Fin N) ℂ, (1 + X) * (1 - X)
      = (1 - X) * (1 + X) := fun X => by noncomm_ring
  have hinv : (1 - Complex.I • S)⁻¹ * (1 + Complex.I • S)⁻¹
      = (1 + Complex.I • S)⁻¹ * (1 - Complex.I • S)⁻¹ := by
    rw [← Matrix.mul_inv_rev, hcomm, Matrix.mul_inv_rev]
  rw [Matrix.conjTranspose_mul, Matrix.conjTranspose_nonsing_inv, hAc, hBc]
  rw [Matrix.mul_assoc, ← Matrix.mul_assoc ((1 - Complex.I • S)⁻¹), hinv,
    Matrix.mul_assoc ((1 + Complex.I • S)⁻¹), Matrix.nonsing_inv_mul _ hB,
    Matrix.mul_one, Matrix.mul_nonsing_inv _ hA]

theorem construct_U_cayley (N : ℕ) (V : Fin N → ℝ) (m hbar dx dt : ℝ) :
    construct_U N (fun i => ((V i : ℝ) : ℂ)) m hbar dx dt =
      (1 + Complex.I • SmatC N V m hbar dx dt)⁻¹ *
        (1 - Complex.I • SmatC N V m hbar dx dt) := by
  unfold construct_U
  rw [constructA_cayley, constructB_cayley]

/-- `np.trapz(y, dx=dx)`: trapezoidal rule with uniform spacing,
`sum((y[i] + y[i+1]) * dx / 2 for i in range(len(y) - 1))`. -/
def trapz (N : ℕ) (y : Fin N → ℂ) (dx : ℝ) : ℂ :=
  ∑ i : Fin (N - 1),
    (y ⟨i.1, by have h := i.2; omega⟩ + y ⟨i.1 + 1, by have h := i.2; omega⟩) *
      (dx : ℂ) / 2

/-- The integrand `np.conj(self.x)*self.x` together with `np.trapz`:
the squared-norm integral computed by `Wavefunction_1D.normalize`. -/
def normSqIntegral (N : ℕ) (x : Fin N → ℂ) (dx : ℝ) : ℂ :=
  trapz N (fun j => (starRingEnd ℂ) (x j) * x j) dx

/-- The same integral as a real number. -/
def normSqIntegralR (N : ℕ) (x : Fin N → ℂ) (dx : ℝ) : ℝ :=
  ∑ i : Fin (N - 1),
    (Complex.normSq (x ⟨i.1, by have h := i.2; omega⟩) +
      Complex.normSq (x ⟨i.1 + 1, by have h := i.2; omega⟩)) * dx / 2

/-- `Wavefunction_1D.normalize`:
`self.x = self.x / np.sqrt(np.trapz(np.conj(self.x)*self.x, dx=self.dx))`.
The argument of `np.sqrt` is `conj(ψ)·ψ` integrated, which has exactly zero
imaginary part and a nonnegative real part, so the principal complex square
root used by numpy coincides with the real square root of the real part. -/
def normalizeWF (N : ℕ) (dx : ℝ) (x : Fin N → ℂ) : Fin N → ℂ :=
  fun i => x i / ((Real.sqrt (normSqIntegral N x dx).re : ℝ) : ℂ)

/-- `np.fft.fft`: `F[j] = sum(x[l] * exp(-2*pi*1j*j*l/N) for l in range(N))`. -/
def fft (N : ℕ) (x : Fin N → ℂ) : Fin N → ℂ :=
  fun j => ∑ l, x l *
    Complex.exp (-(2 * (π : ℂ) * Complex.I * ((j : ℕ) : ℂ) * ((l : ℕ) : ℂ)) / N)

/-- `np.fft.ifft`:
`x[l] = sum(F[j] * exp(2*pi*1j*j*l/N) for j in range(N)) / N`. -/
def ifft (N : ℕ) (F : Fin N → ℂ) : Fin N → ℂ :=
  fun l => (∑ j, F j *
    Complex.exp ((2 * (π : ℂ) * Complex.I * ((j : ℕ) : ℂ) * ((l : ℕ) : ℂ)) / N)) / N

/-- `np.fft.fftfreq(N, d)`: frequencies `[0, 1, ..., ceil(N/2)-1,
-floor(N/2), ..., -1] / (d*N)`. -/
def fftfreq (N : ℕ) (d : ℝ) : Fin N → ℝ :=
  fun j =>
    (if (j : ℕ) < (N + 1) / 2 then ((j : ℕ) : ℝ) else ((j : ℕ) : ℝ) - N) / (d * N)

/-- The mutable state of a `Wavefunction_1D` object: the inherited constants
together with the wavefunction array `self.x`. -/
structure WFState (N : ℕ) where
  m : ℝ
  hbar : ℝ
  x0 : ℝ
  L : ℝ
  dx : ℝ
  dt : ℝ
  x : Fin N → ℂ

/-- `np.abs(np.fft.fft(x))**2`, the unnormalized momentum-space probability
weights used by `expected_momentum` and `set_to_momentum_eigenstate`. -/
def momentumProb (N : ℕ) (x : Fin N → ℂ) : Fin N → ℝ≥0 :=
  fun j => ‖fft N x j‖₊ ^ 2

/-- `Wavefunction_1D.expected_momentum`: Fourier transform, square, renormalize
when the maximum weight is nonzero, and return `np.dot(p, prob)` with
`p = 2*np.pi*freq*hbar/L`.  The method assigns no attribute, so the returned
state is the input state. -/
def expectedMomentum {N : ℕ} (s : WFState N) : WFState N × ℝ :=
  let prob0 := momentumProb N s.x
  let prob := if Finset.univ.sup prob0 ≠ 0
    then fun j => prob0 j / ∑ j2, prob0 j2 else prob0
  (s, ∑ j, 2 * π * fftfreq N s.dx j * s.hbar / s.L * (prob j : ℝ))

/-- `Wavefunction_1D.set_to_momentum_eigenstate`, given the frequency value `k`
drawn by `np.random.choice` (feasible draws are the frequencies of nonzero
probability weight).  The code masks the frequency array with
`[(0. if f != k else f) for f in freq]`, multiplies the spectrum by the mask
(`F = freq*F`), inverse transforms, assigns `self.x`, normalizes, and returns
`p = 2*np.pi*k*hbar/L`. -/
def setToMomentumEigenstate {N : ℕ} (s : WFState N) (k : ℝ) : WFState N × ℝ :=
  let F := fft N s.x
  let masked : Fin N → ℂ :=
    fun j => ((if fftfreq N s.dx j ≠ k then (0 : ℝ) else fftfreq N s.dx j) : ℂ) * F j
  ({ s with x := normalizeWF N s.dx (ifft N masked) }, 2 * π * k * s.hbar / s.L)

/-- `prob = np.abs(np.dot(self.x, eigenstates))**2` from
`Wavefunction_1D.expectation_value` and `set_to_eigenstate`: the plain
(unconjugated) dot product of `x` against each eigenvector column. -/
def probOverlap (N M : ℕ) (x : Fin N → ℂ) (E : Matrix (Fin N) (Fin M) ℂ) :
    Fin M → ℝ≥0 :=
  fun k => ‖∑ j, x j * E j k‖₊ ^ 2

/-- `Wavefunction_1D.expectation_value(eigenvalues, eigenstates)`: overlap
weights, renormalized iff the maximum weight is nonzero, then
`np.sum(np.dot(np.real(eigenvalues), prob))`. -/
def expectationValue (N M : ℕ) (x : Fin N → ℂ) (eigenvalues : Fin M → ℂ)
    (E : Matrix (Fin N) (Fin M) ℂ) : ℝ :=
  let prob0 := probOverlap N M x E
  let prob := if Finset.univ.sup prob0 ≠ 0
    then fun k => prob0 k / ∑ k2, prob0 k2 else prob0
  ∑ k, (eigenvalues k).re * (prob k : ℝ)

/-- `Wavefunction_1D.set_to_eigenstate(eigenvalues, eigenstates)`, given the
index `k` drawn by `np.random.choice` (feasible draws are the indices of
nonzero probability weight): sets `self.x = eigenstates.T[[k]][0]` (column `k`
of `eigenstates`), normalizes, and returns `eigenvalues[k]`. -/
def setToEigenstateGiven (N M : ℕ) (dx : ℝ) (eigenvalues : Fin M → ℂ)
    (E : Matrix (Fin N) (Fin M) ℂ) (k : Fin M) : (Fin N → ℂ) × ℂ :=
  (normalizeWF N dx (fun j => E j k), eigenvalues k)

/-- `Unitary_Operator_1D.__init__` on a pre-sampled potential array `V`:
no length check is performed; the array is scaled by `_scale` and passed to
`_construct_U`, whose assembly loop reads `V[i]` for `i < N`.  When
`V.length < N` this read is out of bounds (numba compiles without bounds
checking, so no error is raised and no result is defined); that case is
modelled as `none`.  Otherwise the first `N` entries are used. -/
def buildUFromSeq (c : GridConfig) (V : List ℂ) :
    Option (Matrix (Fin c.N) (Fin c.N) ℂ) :=
  if h : c.N ≤ V.length then
    some (construct_U c.N
      (fun i => (c.scale : ℂ) * V.get ⟨i.1, lt_of_lt_of_le i.2 h⟩)
      c.m c.hbar c.dx c.dt)
  else none

/-- Claim C2: for every potential `V` of length `N` and constants `m`, `hbar`,
`dx`, `dt`, `_construct_U` assembles exactly the tridiagonal matrices `A` and
`B` with `K = (dt*i*hbar)/(4*m*dx^2)` and `J = (dt*i)/(2*hbar)`:
`A[i][i] = (1+2K)+J*V[i]`, `B[i][i] = (1-2K)-J*V[i]`, `A[i][i±1] = -K`,
`B[i][i±1] = K`, all other entries zero, and returns `U = A⁻¹·B`. -/
theorem construct_U_matrix_entries (N : ℕ) (V : Fin N → ℂ) (m hbar dx dt : ℝ) :
    (∀ i l : Fin N,
      constructA N V m hbar dx dt i l =
        if i = l then
          (1 + 2 * (((dt : ℂ) * Complex.I * (hbar : ℂ)) / (4 * (m : ℂ) * (dx : ℂ) ^ 2)))
            + ((dt : ℂ) * Complex.I) / (2 * (hbar : ℂ)) * V i
        else if (l : ℕ) = (i : ℕ) + 1 ∨ (i : ℕ) = (l : ℕ) + 1 then
          -(((dt : ℂ) * Complex.I * (hbar : ℂ)) / (4 * (m : ℂ) * (dx : ℂ) ^ 2))
        else 0) ∧
    (∀ i l : Fin N,
      constructB N V m hbar dx dt i l =
        if i = l then
          (1 - 2 * (((dt : ℂ) * Complex.I * (hbar : ℂ)) / (4 * (m : ℂ) * (dx : ℂ) ^ 2)))
            - ((dt : ℂ) * Complex.I) / (2 * (hbar : ℂ)) * V i
        else if (l : ℕ) = (i : ℕ) + 1 ∨ (i : ℕ) = (l : ℕ) + 1 then
          ((dt : ℂ) * Complex.I * (hbar : ℂ)) / (4 * (m : ℂ) * (dx : ℂ) ^ 2)
        else 0) ∧
    construct_U N V m hbar dx dt =
      (constructA N V m hbar dx dt)⁻¹ * constructB N V m hbar dx dt := by
  refine ⟨fun i l => ?_, fun i l => ?_, rfl⟩
  · rw [constructA_apply]
    rfl
  · rw [constructB_apply]
    rfl

/-- Claim C1 (amended): for every valid `GridConfig` and every real-valued
potential `V` of length `N`, the propagator `U = A⁻¹·B` constructed by
`_construct_U` is unitary: `Uᴴ·U = 1` exactly, over ideal arithmetic. -/
theorem construct_U_unitary_real_potential (c : GridConfig) (hc : c.Valid)
    (V : Fin c.N → ℝ) :
    (construct_U c.N (fun i => ((V i : ℝ) : ℂ)) c.m c.hbar c.dx c.dt)ᴴ *
      construct_U c.N (fun i => ((V i : ℝ) : ℂ)) c.m c.hbar c.dx c.dt = 1 := by
  rw [construct_U_cayley]
  exact cayley_unitary _ (SmatC_herm c.N V c.m c.hbar c.dx c.dt)

/-- Witness for claim C1 (amended), at the default configuration and the zero
potential. -/
theorem construct_U_unitary_real_potential_witness :
    defaultConfig.Valid ∧
      (construct_U defaultConfig.N (fun _ => ((0 : ℝ) : ℂ)) defaultConfig.m
          defaultConfig.hbar defaultConfig.dx defaultConfig.dt)ᴴ *
        construct_U defaultConfig.N (fun _ => ((0 : ℝ) : ℂ)) defaultConfig.m
          defaultConfig.hbar defaultConfig.dx defaultConfig.dt = 1 := by
  have hv : defaultConfig.Valid := by
    unfold GridConfig.Valid defaultConfig
    norm_num
  exact ⟨hv, construct_U_unitary_real_potential defaultConfig hv (fun _ => 0)⟩

theorem I_cubed : Complex.I ^ 3 = -Complex.I := by
  rw [show (3 : ℕ) = 2 + 1 from rfl, pow_succ, Complex.I_sq]
  ring

/-- The valid grid configuration of the counterexample to claim C1:
`m = hbar = 1`, `L = 2`, `N = 2`, `dx = L/N = 1`, `dt = 4`. -/
def cfgC1 : GridConfig where
  m := 1
  hbar := 1
  e := 1
  x0 := 0
  L := 2
  N := 2
  dx := 1
  dt := 4
  scale := 1

/-- Claim C1 (counterexample): for the valid configuration `cfgC1` and the
complex (absorbing) potential `V = [i, i]`, the constructed propagator is not
unitary: `Uᴴ·U ≠ 1`.  So unitarity does not hold for every potential field of
length `N`; it fails whenever the potential has nonzero imaginary part. -/
theorem construct_U_not_unitary_complex_potential :
    cfgC1.Valid ∧
      (construct_U cfgC1.N (fun _ => Complex.I) cfgC1.m cfgC1.hbar cfgC1.dx
          cfgC1.dt)ᴴ *
        construct_U cfgC1.N (fun _ => Complex.I) cfgC1.m cfgC1.hbar cfgC1.dx
          cfgC1.dt ≠ 1 := by
  constructor
  · unfold GridConfig.Valid cfgC1
    norm_num
  show (construct_U 2 (fun _ => Complex.I) 1 1 1 4)ᴴ *
      construct_U 2 (fun _ => Complex.I) 1 1 1 4 ≠ 1
  have hK : Kconst 1 1 1 4 = Complex.I := by
    unfold Kconst
    push_cast
    ring
  have hJ : Jconst 1 4 = 2 * Complex.I := by
    unfold Jconst
    push_cast
    ring
  have hdetA : (constructA 2 (fun _ => Complex.I) 1 1 1 4).det
      = -2 - 4 * Complex.I := by
    rw [Matrix.det_fin_two, constructA_apply, constructA_apply, constructA_apply,
      constructA_apply]
    simp [triMat, Fin.ext_iff, hK, hJ]
    ring_nf
    simp only [Complex.I_sq, I_cubed, Complex.I_pow_four]
    ring_nf
  have hdetB : (constructB 2 (fun _ => Complex.I) 1 1 1 4).det
      = 6 - 12 * Complex.I := by
    rw [Matrix.det_fin_two, constructB_apply, constructB_apply, constructB_apply,
      constructB_apply]
    simp [triMat, Fin.ext_iff, hK, hJ]
    ring_nf
    simp only [Complex.I_sq, I_cubed, Complex.I_pow_four]
    ring_nf
  intro h
  have hdet := congrArg Matrix.det h
  rw [Matrix.det_mul, Matrix.det_conjTranspose, Matrix.det_one] at hdet
  have hU : (construct_U 2 (fun _ => Complex.I) 1 1 1 4).det
      = (constructA 2 (fun _ => Complex.I) 1 1 1 4).det⁻¹ *
        (constructB 2 (fun _ => Complex.I) 1 1 1 4).det := by
    unfold construct_U
    rw [Matrix.det_mul, Matrix.det_nonsing_inv, Ring.inverse_eq_inv]
  rw [hU, hdetA, hdetB] at hdet
  have hdA : (-2 - 4 * Complex.I : ℂ) ≠ 0 := by
    norm_num [Complex.ext_iff]
  have hdAs : star (-2 - 4 * Complex.I : ℂ) = -2 + 4 * Complex.I := by
    simp [Complex.star_def, Complex.ext_iff]
  have hdBs : star (6 - 12 * Complex.I : ℂ) = 6 + 12 * Complex.I := by
    simp [Complex.star_def, Complex.ext_iff]
  rw [star_mul', star_inv₀, hdAs, hdBs] at hdet
  have hdA2 : (-2 + 4 * Complex.I : ℂ) ≠ 0 := by
    norm_num [Complex.ext_iff]
  field_simp [hdA, hdA2] at hdet
  ring_nf at hdet
  simp only [Complex.I_sq, I_cubed, Complex.I_pow_four] at hdet
  norm_num [Complex.ext_iff] at hdet

/-- Claim C5 (amended): a callable waveform or potential is sampled at the `N`
points of `np.linspace(x0, L + x0, N)`, i.e. index `i` corresponds to position
`x0 + i*(L/(N-1))` (endpoint included), not `x0 + i*dx` with `dx = L/N`. -/
theorem sampling_positions_linspace (c : GridConfig) (f g : ℝ → ℂ)
    (i : Fin c.N) :
    waveformFromCallable c f i = f (c.x0 + (i : ℕ) * (c.L / ((c.N - 1 : ℕ) : ℝ)))
    ∧ potentialFromCallable c g i =
        g (c.x0 + (i : ℕ) * (c.L / ((c.N - 1 : ℕ) : ℝ))) := by
  constructor
  · unfold waveformFromCallable sampleGrid linspace
    congr 1
    ring
  · unfold potentialFromCallable sampleGrid linspace
    congr 1
    ring

/-- Claim C5 (counterexample): with the default configuration (`x0 = -1/2`,
`L = 1`, `N = 512`, `dx = L/N = 1/512`) and the identity waveform, index 511
is sampled at position `1/2` (the right endpoint of `np.linspace`), which
differs from the claimed `x0 + 511*dx = -1/2 + 511/512`. -/
theorem waveform_sampling_positions_ctex :
    waveformFromCallable defaultConfig (fun r => (r : ℂ))
        ⟨511, by norm_num [defaultConfig]⟩ = ((1 / 2 : ℝ) : ℂ)
    ∧ (1 / 2 : ℝ) ≠ defaultConfig.x0 + 511 * defaultConfig.dx := by
  constructor
  · unfold waveformFromCallable sampleGrid linspace defaultConfig
    norm_num
  · unfold defaultConfig
    norm_num

theorem trapz_two (y : Fin 2 → ℂ) (dx : ℝ) :
    trapz 2 y dx = (y 0 + y 1) * (dx : ℂ) / 2 := by
  unfold trapz
  rw [Fin.sum_univ_one]
  rfl

theorem trapz_div_const (N : ℕ) (y : Fin N → ℂ) (dx : ℝ) (c : ℂ) :
    trapz N (fun j => y j / c) dx = trapz N y dx / c := by
  unfold trapz
  rw [Finset.sum_div]
  refine Finset.sum_congr rfl fun i _ => ?_
  ring

theorem normSqIntegral_eq_ofReal (N : ℕ) (x : Fin N → ℂ) (dx : ℝ) :
    normSqIntegral N x dx = ((normSqIntegralR N x dx : ℝ) : ℂ) := by
  unfold normSqIntegral trapz normSqIntegralR
  push_cast
  refine Finset.sum_congr rfl fun i _ => ?_
  rw [← Complex.normSq_eq_conj_mul_self, ← Complex.normSq_eq_conj_mul_self]

theorem normSqIntegral_re (N : ℕ) (x : Fin N → ℂ) (dx : ℝ) :
    (normSqIntegral N x dx).re = normSqIntegralR N x dx := by
  rw [normSqIntegral_eq_ofReal]
  exact Complex.ofReal_re _

theorem normSqIntegral_div_real (N : ℕ) (x : Fin N → ℂ) (dx c : ℝ) :
    normSqIntegral N (fun j => x j / ((c : ℝ) : ℂ)) dx
      = normSqIntegral N x dx / (((c : ℝ) : ℂ) * ((c : ℝ) : ℂ)) := by
  unfold normSqIntegral
  rw [← trapz_div_const]
  congr 1
  funext j
  rw [map_div₀, Complex.conj_ofReal]
  ring

/-- Claim C9: normalization is idempotent: for every wavefunction whose norm
integral is positive, normalizing twice equals normalizing once (exactly,
over ideal arithmetic). -/
theorem normalize_idempotent (N : ℕ) (dx : ℝ) (x : Fin N → ℂ)
    (h : 0 < (normSqIntegral N x dx).re) :
    normalizeWF N dx (normalizeWF N dx x) = normalizeWF N dx x := by
  have hre := normSqIntegral_re N x dx
  have htpos : 0 < normSqIntegralR N x dx := hre ▸ h
  have hint : normSqIntegral N (normalizeWF N dx x) dx = ((1 : ℝ) : ℂ) := by
    have h1 : normalizeWF N dx x
        = fun j => x j / ((Real.sqrt (normSqIntegral N x dx).re : ℝ) : ℂ) := rfl
    rw [h1, normSqIntegral_div_real, normSqIntegral_eq_ofReal, Complex.ofReal_re,
      ← Complex.ofReal_mul, Real.mul_self_sqrt htpos.le, ← Complex.ofReal_div,
      div_self (ne_of_gt htpos)]
  funext i
  show (normalizeWF N dx x) i /
      ((Real.sqrt (normSqIntegral N (normalizeWF N dx x) dx).re : ℝ) : ℂ)
    = (normalizeWF N dx x) i
  rw [hint, Complex.ofReal_re, Real.sqrt_one, Complex.ofReal_one, div_one]

/-- Witness for claim C9: the constant wavefunction `1` on two grid points
with `dx = 1` has norm integral `1 > 0`, and normalizing twice equals
normalizing once there. -/
theorem normalize_idempotent_witness :
    0 < (normSqIntegral 2 (fun _ => (1 : ℂ)) 1).re ∧
      normalizeWF 2 1 (normalizeWF 2 1 (fun _ => (1 : ℂ)))
        = normalizeWF 2 1 (fun _ => (1 : ℂ)) := by
  have h : 0 < (normSqIntegral 2 (fun _ => (1 : ℂ)) 1).re := by
    unfold normSqIntegral
    rw [trapz_two]
    norm_num
  exact ⟨h, normalize_idempotent 2 1 _ h⟩

/-- Claim C4 (code evidence): on the all-zero wavefunction the norm integral
is `0`, and `normalize` silently returns the all-zero wavefunction (the
ideal-arithmetic image of the division `0/sqrt(0)`); no error value reaches
the caller.  In the Python code, numpy's default error state only warns, so
the `except FloatingPointError` branch never runs and `self.x` silently
becomes all-NaN. -/
theorem normalize_zero_norm_silent :
    normSqIntegral 4 (fun _ => (0 : ℂ)) (1 / 512) = 0 ∧
      normalizeWF 4 (1 / 512) (fun _ => (0 : ℂ)) = fun _ => 0 := by
  constructor
  · unfold normSqIntegral trapz
    simp
  · funext i
    unfold normalizeWF
    simp

/-- Claim C10: `expected_momentum` is a pure observer: the method body assigns
no attribute, so the stored wavefunction array and all configuration constants
are unchanged; only the probability-weighted momentum value is returned. -/
theorem expected_momentum_pure (N : ℕ) (s : WFState N) :
    (expectedMomentum s).1 = s := rfl

/-- The failing input of claim C3: the constant wavefunction `1` on a 4-point
grid with `dx = 1/4`, `hbar = 1`, `L = 1`. -/
def wfC3 : WFState 4 where
  m := 1
  hbar := 1
  x0 := 0
  L := 1
  dx := 1 / 4
  dt := 1 / 100000
  x := fun _ => 1

/-- Claim C3 (code evidence): for the constant wavefunction the Fourier
coefficient at frequency index 0 equals 4 (so the zero frequency `k = 0` is
the drawn outcome: all other coefficients vanish), yet
`set_to_momentum_eigenstate` at `k = 0` produces the identically-zero
wavefunction rather than the normalized zero-momentum mode: the code
multiplies the spectrum by the masked frequency array (`F = freq*F`), and the
retained mask entry is the frequency value itself, which is 0.  The returned
momentum is 0. -/
theorem set_to_momentum_eigenstate_zero_freq_collapse :
    fft 4 wfC3.x 0 = 4 ∧ fftfreq 4 wfC3.dx 0 = 0 ∧
      ((setToMomentumEigenstate wfC3 0).1).x = (fun _ => 0) ∧
      (setToMomentumEigenstate wfC3 0).2 = 0 := by
  have hmask : (fun j => ((if fftfreq 4 wfC3.dx j ≠ (0 : ℝ) then (0 : ℝ)
      else fftfreq 4 wfC3.dx j) : ℂ) * fft 4 wfC3.x j) = fun _ => (0 : ℂ) := by
    funext j
    by_cases hj : fftfreq 4 wfC3.dx j ≠ (0 : ℝ)
    · rw [if_pos hj]
      simp
    · rw [if_neg hj]
      push_neg at hj
      rw [hj]
      simp
  refine ⟨?_, ?_, ?_, ?_⟩
  · show fft 4 (fun _ => 1) 0 = 4
    unfold fft
    norm_num
  · show fftfreq 4 (1 / 4) 0 = 0
    unfold fftfreq
    norm_num
  · show normalizeWF 4 wfC3.dx (ifft 4 (fun j => ((if fftfreq 4 wfC3.dx j ≠ (0 : ℝ)
        then (0 : ℝ) else fftfreq 4 wfC3.dx j) : ℂ) * fft 4 wfC3.x j)) = fun _ => 0
    rw [hmask]
    have hifft : ifft 4 (fun _ => (0 : ℂ)) = fun _ => 0 := by
      funext l
      unfold ifft
      simp
    rw [hifft]
    funext i
    unfold normalizeWF
    simp
  · show 2 * π * (0 : ℝ) * wfC3.hbar / wfC3.L = 0
    norm_num

/-- Claim C6: `expectation_value` computes `prob[k] = |ψ·E_k|²` (the dot
product of ψ against eigenvector column k), renormalizes `prob` to sum to 1
if and only if `max(prob) ≠ 0`, and returns `Σ re(λ_k)·prob[k]`; when every
probability is zero it returns 0, recovering locally instead of erroring. -/
theorem expectation_value_spec (N M : ℕ) (x : Fin N → ℂ) (vals : Fin M → ℂ)
    (E : Matrix (Fin N) (Fin M) ℂ) :
    (Finset.univ.sup (probOverlap N M x E) = 0 →
        (∀ k, probOverlap N M x E k = 0) ∧ expectationValue N M x vals E = 0)
    ∧ (Finset.univ.sup (probOverlap N M x E) ≠ 0 →
        (∑ k, probOverlap N M x E k / ∑ k2, probOverlap N M x E k2) = 1
        ∧ expectationValue N M x vals E
            = ∑ k, (vals k).re *
                ((probOverlap N M x E k / ∑ k2, probOverlap N M x E k2 : ℝ≥0) : ℝ)) := by
  constructor
  · intro hsup
    have hall : ∀ k, probOverlap N M x E k = 0 := fun k =>
      le_antisymm (le_of_le_of_eq (Finset.le_sup (Finset.mem_univ k)) hsup)
        (zero_le _)
    refine ⟨hall, ?_⟩
    simp only [expectationValue]
    rw [if_neg (not_not_intro hsup)]
    simp [hall]
  · intro hsup
    have hsum : (∑ k2, probOverlap N M x E k2) ≠ 0 := by
      intro h0
      apply hsup
      have hall : ∀ k ∈ Finset.univ, probOverlap N M x E k = 0 :=
        fun k hk => Finset.sum_eq_zero_iff.mp h0 k hk
      rw [← le_zero_iff]
      exact Finset.sup_le fun k hk => le_of_eq (hall k hk)
    constructor
    · rw [← Finset.sum_div]
      exact div_self hsum
    · simp only [expectationValue]
      rw [if_pos hsup]

/-- Witness for claim C6, covering both branches: a unit wavefunction against
the 1×1 identity has renormalized probabilities summing to 1, and the zero
wavefunction yields expectation value 0. -/
theorem expectation_value_spec_witness :
    (∑ k, probOverlap 1 1 (fun _ => (1 : ℂ)) 1 k /
        ∑ k2, probOverlap 1 1 (fun _ => (1 : ℂ)) 1 k2) = 1
    ∧ expectationValue 1 1 (fun _ => (0 : ℂ)) (fun _ => 2) 1 = 0 := by
  have hp1 : probOverlap 1 1 (fun _ => (1 : ℂ)) 1 0 = 1 := by
    unfold probOverlap
    simp
  have h1 : Finset.univ.sup (probOverlap 1 1 (fun _ => (1 : ℂ)) 1) ≠ 0 := by
    intro h0
    have hle : probOverlap 1 1 (fun _ => (1 : ℂ)) 1 0
        ≤ Finset.univ.sup (probOverlap 1 1 (fun _ => (1 : ℂ)) 1) :=
      Finset.le_sup (Finset.mem_univ 0)
    rw [h0, hp1] at hle
    exact absurd hle (by norm_num)
  have h2 : Finset.univ.sup (probOverlap 1 1 (fun _ => (0 : ℂ)) 1) = 0 := by
    rw [← le_zero_iff]
    refine Finset.sup_le fun k _ => le_of_eq ?_
    unfold probOverlap
    simp
  exact ⟨((expectation_value_spec 1 1 (fun _ => 1) (fun _ => 2) 1).2 h1).1,
    ((expectation_value_spec 1 1 (fun _ => 0) (fun _ => 2) 1).1 h2).2⟩

/-- Claim C7: `set_to_eigenstate` on the concrete scenario: eigenvalues
`[1,2,3]`, eigenstates the 3×3 identity, ψ the one-hot vector at index 1.
The overlap probability vector is exactly `[0,1,0]`, so the only drawable
index is `k = 1`; for every drawable index the method sets ψ to the
normalized sampled eigenvector column (column 1 of the identity, which is ψ
itself) and returns exactly eigenvalue 2. -/
theorem set_to_eigenstate_scenario :
    probOverlap 3 3 (![0, 1, 0]) 1 = ![0, 1, 0]
    ∧ ∀ k : Fin 3, probOverlap 3 3 (![0, 1, 0]) 1 k ≠ 0 →
        (setToEigenstateGiven 3 3 (1 / 512) (![1, 2, 3]) 1 k).2 = 2
        ∧ (setToEigenstateGiven 3 3 (1 / 512) (![1, 2, 3]) 1 k).1
            = normalizeWF 3 (1 / 512) (![0, 1, 0]) := by
  have hprob : probOverlap 3 3 (![0, 1, 0]) 1 = ![0, 1, 0] := by
    funext k
    unfold probOverlap
    fin_cases k <;> simp [Fin.sum_univ_three, Matrix.one_apply]
  refine ⟨hprob, fun k hk => ?_⟩
  have hk1 : k = 1 := by
    fin_cases k
    · rw [hprob] at hk
      simp at hk
    · rfl
    · rw [hprob] at hk
      simp at hk
  subst hk1
  constructor
  · show (![1, 2, 3] : Fin 3 → ℂ) 1 = 2
    simp
  · have hcol : (fun j => (1 : Matrix (Fin 3) (Fin 3) ℂ) j 1)
        = (![0, 1, 0] : Fin 3 → ℂ) := by
      funext j
      fin_cases j <;> simp [Matrix.one_apply]
    show normalizeWF 3 (1 / 512) (fun j => (1 : Matrix (Fin 3) (Fin 3) ℂ) j 1)
        = normalizeWF 3 (1 / 512) (![0, 1, 0])
    rw [hcol]

/-- Witness for claim C7: index 1 is drawable (probability 1 ≠ 0) and the
returned eigenvalue there is exactly 2. -/
theorem set_to_eigenstate_scenario_witness :
    probOverlap 3 3 (![0, 1, 0]) 1 1 ≠ 0 ∧
      (setToEigenstateGiven 3 3 (1 / 512) (![1, 2, 3]) 1 1).2 = 2 := by
  have h : probOverlap 3 3 (![0, 1, 0]) 1 1 ≠ 0 := by
    unfold probOverlap
    simp [Fin.sum_univ_three, Matrix.one_apply]
  exact ⟨h, (set_to_eigenstate_scenario.2 1 h).1⟩

/-- The valid grid configuration used for claim C8: `N = 2`. -/
def cfgC8 : GridConfig where
  m := 1
  hbar := 1
  e := 1
  x0 := 0
  L := 2
  N := 2
  dx := 1
  dt := 1
  scale := 1

/-- Claim C8 (counterexample): for the valid configuration `cfgC8` (`N = 2`)
and the pre-sampled potential `[0, 0, 0]` of length `3 ≠ N`, propagator
construction does not fail fast with an invalid-input error: it silently
builds a propagator from the first `N` entries.  The code contains no length
check at all. -/
theorem wrong_length_potential_no_error :
    cfgC8.Valid ∧ ([0, 0, 0] : List ℂ).length ≠ cfgC8.N ∧
      buildUFromSeq cfgC8 [0, 0, 0] ≠ none := by
  refine ⟨?_, by norm_num [cfgC8], ?_⟩
  · unfold GridConfig.Valid cfgC8
    norm_num
  · unfold buildUFromSeq
    rw [dif_pos (by norm_num [cfgC8])]
    simp

/-- Claim C8 (amended): no length validation is performed.  Whenever the
pre-sampled potential has at least `N` entries — in particular whenever it is
longer than `N` — construction succeeds, using the first `N` entries scaled
by `_scale`.  (For shorter arrays the assembly loop reads out of bounds with
no defined error.) -/
theorem buildU_no_length_check (c : GridConfig) (V : List ℂ)
    (h : c.N ≤ V.length) :
    buildUFromSeq c V = some (construct_U c.N
      (fun i => (c.scale : ℂ) * V.getD i 0) c.m c.hbar c.dx c.dt) := by
  unfold buildUFromSeq
  rw [dif_pos h]
  refine congrArg some ?_
  have hfun : (fun i : Fin c.N => (c.scale : ℂ) * V.get ⟨i.1, lt_of_lt_of_le i.2 h⟩)
      = fun i : Fin c.N => (c.scale : ℂ) * V.getD i 0 := by
    funext i
    rw [List.get_eq_getElem, List.getD_eq_getElem _ _ (lt_of_lt_of_le i.2 h)]
  rw [hfun]

/-- Witness for claim C8 (amended), at `cfgC8` and the length-3 potential. -/
theorem buildU_no_length_check_witness :
    buildUFromSeq cfgC8 [0, 0, 0] = some (construct_U cfgC8.N
      (fun i => (cfgC8.scale : ℂ) * ([0, 0, 0] : List ℂ).getD i 0)
      cfgC8.m cfgC8.hbar cfgC8.dx cfgC8.dt) :=
  buildU_no_length_check cfgC8 [0, 0, 0] (by norm_num [cfgC8])
